import Mathlib

/-
Verification of the regex-to-NFA converter (`nfa_gui.py`).

The core pipeline of the program is
  `expand_character_classes` → `infix_to_postfix` → `postfix_to_nfa`,
composed by `regex_to_nfa`.  We embed those functions here over
`List Char` (Python strings are iterated character by character), with
Python dictionaries rendered as insertion-ordered association lists and
Python sets of destination states rendered as duplicate-free lists.
Python exceptions (`IndexError` from popping an empty list, `ValueError`
from class expansion) are rendered as `none`.
-/

namespace RegexToNfa

/-- The epsilon symbol used by the operator constructions in
`postfix_to_nfa` (the Python code writes the literal character 'ε'). -/
def eps : Char := 'ε'

/-- Inner dictionary of a transition table: symbol ↦ set of destination
states (`dict` of `set` in Python, insertion-ordered here). -/
abbrev Inner := List (Char × List Nat)

/-- Transition table: state ↦ (symbol ↦ set of destination states). -/
abbrev Trans := List (Nat × Inner)

/-- Key lookup in an insertion-ordered association list
(Python's `k in d` / `d[k]`). -/
def lookupKey {α β : Type} [DecidableEq α] (k : α) : List (α × β) → Option β
  | [] => none
  | p :: ps => if p.1 = k then some p.2 else lookupKey k ps

/-- Assignment `d[k] = v` on an insertion-ordered association list:
replaces the value at an existing key in place, otherwise appends. -/
def setEntry {α β : Type} [DecidableEq α] (m : List (α × β)) (k : α) (v : β) :
    List (α × β) :=
  match m with
  | [] => [(k, v)]
  | p :: ps => if p.1 = k then (k, v) :: ps else p :: setEntry ps k v

/-- Python's `set.add`: destination sets are mutated by adding the new
element if not already present. -/
def addDest (ds : List Nat) (d : Nat) : List Nat :=
  if d ∈ ds then ds else ds ++ [d]

/-- Inner part of `NFA.add_transition`: ensure a destination set exists
for `sym` and add `d` to it. -/
def addSym (inner : Inner) (sym : Char) (d : Nat) : Inner :=
  match lookupKey sym inner with
  | some ds => setEntry inner sym (addDest ds d)
  | none => inner ++ [(sym, [d])]

/-- `NFA.add_transition` on the transition table (nfa_gui.py lines 17-22):
create the inner dict for `src` if missing, then add `dst` to the
destination set of `sym`. -/
def addTransition (t : Trans) (src : Nat) (sym : Char) (dst : Nat) : Trans :=
  match lookupKey src t with
  | some inner => setEntry t src (addSym inner sym dst)
  | none => t ++ [(src, addSym [] sym dst)]

/-- The `NFA` class: start state, accept state, transition table. -/
structure NFA where
  start_state : Nat
  accept_state : Nat
  transitions : Trans
deriving DecidableEq, Repr

/-- Method `NFA.add_transition`. -/
def NFA.add_transition (n : NFA) (src : Nat) (sym : Char) (dst : Nat) : NFA :=
  ⟨n.start_state, n.accept_state, addTransition n.transitions src sym dst⟩

/-- One assignment `nfa.transitions[state][symbol] = destinations.copy()`
of the merge loops in the `.` and `|` branches (the key `s` is already
present in the outer table when this runs). -/
def setSym (t : Trans) (s : Nat) (sym : Char) (ds : List Nat) : Trans :=
  t.map fun p => if p.1 = s then (p.1, setEntry p.2 sym ds) else p

/-- The inner loop `for symbol, destinations in transitions.items()` of the
merge in the `.` and `|` branches. -/
def setSyms (t : Trans) (s : Nat) : Inner → Trans
  | [] => t
  | q :: qs => setSyms (setSym t s q.1 q.2) s qs

/-- One iteration of the outer merge loop (nfa_gui.py lines 169-173 and
181-185): create an empty inner dict for the state if missing, then copy
every (symbol, destinations) entry of the second fragment over. -/
def mergeOne (acc : Trans) (p : Nat × Inner) : Trans :=
  setSyms (match lookupKey p.1 acc with
           | some _ => acc
           | none => acc ++ [(p.1, [])]) p.1 p.2

/-- The whole merge loop `for state, transitions in nfa2.transitions.items()`
used by the `.` and `|` branches of `postfix_to_nfa`. -/
def mergeTrans (t1 : Trans) : Trans → Trans
  | [] => t1
  | p :: ps => mergeTrans (mergeOne t1 p) ps

/-- One iteration of the token loop of `postfix_to_nfa` (lines 133-190).
State is (next_state_id, operand stack with the top at the head); `none`
models the `IndexError` raised by `stack.pop()` on an empty stack. -/
def postfixStep : Nat × List NFA → Char → Option (Nat × List NFA)
  | (cnt, stk), c =>
  if c ∉ (['*', '+', '?', '.', '|'] : List Char) then
    some (cnt + 2, ((NFA.mk cnt (cnt + 1) []).add_transition cnt c (cnt + 1)) :: stk)
  else if c = '*' then
    match stk with
    | [] => none
    | n1 :: rest =>
      some (cnt + 2,
        ((((NFA.mk cnt (cnt + 1) n1.transitions).add_transition
              cnt eps n1.start_state).add_transition
              n1.accept_state eps n1.start_state).add_transition
              cnt eps (cnt + 1)).add_transition
              n1.accept_state eps (cnt + 1) :: rest)
  else if c = '+' then
    match stk with
    | [] => none
    | n1 :: rest =>
      some (cnt + 2,
        (((NFA.mk cnt (cnt + 1) n1.transitions).add_transition
              cnt eps n1.start_state).add_transition
              n1.accept_state eps n1.start_state).add_transition
              n1.accept_state eps (cnt + 1) :: rest)
  else if c = '?' then
    match stk with
    | [] => none
    | n1 :: rest =>
      some (cnt + 2,
        (((NFA.mk cnt (cnt + 1) n1.transitions).add_transition
              cnt eps n1.start_state).add_transition
              n1.accept_state eps (cnt + 1)).add_transition
              cnt eps (cnt + 1) :: rest)
  else if c = '.' then
    match stk with
    | [] => none
    | [_] => none
    | n2 :: n1 :: rest =>
      some (cnt,
        (NFA.mk n1.start_state n2.accept_state
            (mergeTrans n1.transitions n2.transitions)).add_transition
            n1.accept_state eps n2.start_state :: rest)
  else
    match stk with
    | [] => none
    | [_] => none
    | n2 :: n1 :: rest =>
      some (cnt + 2,
        ((((NFA.mk cnt (cnt + 1)
              (mergeTrans n1.transitions n2.transitions)).add_transition
              cnt eps n1.start_state).add_transition
              cnt eps n2.start_state).add_transition
              n1.accept_state eps (cnt + 1)).add_transition
              n2.accept_state eps (cnt + 1) :: rest)

/-- The token loop of `postfix_to_nfa`, run over the whole token list. -/
def runPostfixToks (st : Nat × List NFA) : List Char → Option (Nat × List NFA)
  | [] => some st
  | c :: cs =>
    match postfixStep st c with
    | none => none
    | some st2 => runPostfixToks st2 cs

/-- `postfix_to_nfa` (lines 122-191): run the token loop from counter 0 and
an empty stack, then `return stack.pop()` — which raises (here: `none`)
when the final stack is empty, and otherwise returns the top fragment
regardless of how many fragments remain below it. -/
def postfix_to_nfa (toks : List Char) : Option NFA :=
  match runPostfixToks (0, []) toks with
  | none => none
  | some (_, []) => none
  | some (_, n :: _) => some n

/-- Pass 1 of `infix_to_postfix` (lines 88-97): insert an explicit
concatenation operator between `c` and the following character `nxt`
whenever `c` is not in `['(', '|']` and `nxt` is not in
`[')', '|', '*', '+', '?']`. -/
def insertConcat : List Char → List Char
  | [] => []
  | [c] => [c]
  | c :: nxt :: rest =>
    if c ∉ (['(', '|'] : List Char) ∧ nxt ∉ ([')', '|', '*', '+', '?'] : List Char)
    then c :: '.' :: insertConcat (nxt :: rest)
    else c :: insertConcat (nxt :: rest)

/-- The precedence table of `infix_to_postfix` (line 101); characters not
in the Python dict never reach a precedence lookup. -/
def prec : Char → Nat
  | '*' => 3
  | '+' => 3
  | '?' => 3
  | '.' => 2
  | '|' => 1
  | _ => 0

/-- The loop `while stack and precedence[stack[-1]] >= precedence[char]`
(lines 111-112), popping operators to the output. -/
def popGE (out stk : List Char) (p : Nat) : List Char × List Char :=
  match stk with
  | [] => (out, [])
  | top :: rest =>
    if prec top ≥ p then popGE (out ++ [top]) rest p else (out, top :: rest)

/-- The loop `while stack and stack[-1] != '('` of the `)` branch
(lines 107-108). -/
def popUntilParen (out stk : List Char) : List Char × List Char :=
  match stk with
  | [] => (out, [])
  | top :: rest =>
    if top = '(' then (out, top :: rest) else popUntilParen (out ++ [top]) rest

/-- One iteration of the shunting-yard loop of `infix_to_postfix`
(lines 103-115); `none` models the `IndexError` of `stack.pop()` in the
`)` branch when no `(` is on the stack. -/
def shuntStep (st : List Char × List Char) (c : Char) :
    Option (List Char × List Char) :=
  let out := st.1
  let stk := st.2
  if c = '(' then some (out, c :: stk)
  else if c = ')' then
    match popUntilParen out stk with
    | (_, []) => none
    | (out2, _ :: rest) => some (out2, rest)
  else if c ∈ (['*', '+', '?', '.', '|', '('] : List Char) then
    let r := popGE out stk (prec c)
    some (r.1, c :: r.2)
  else some (out ++ [c], stk)

/-- The shunting-yard loop run over the whole (explicit-concatenation)
character list. -/
def shuntScan (st : List Char × List Char) : List Char → Option (List Char × List Char)
  | [] => some st
  | c :: cs =>
    match shuntStep st c with
    | none => none
    | some st2 => shuntScan st2 cs

/-- `infix_to_postfix` (lines 86-120): insert explicit concatenation, run
the shunting-yard scan, then pop every remaining stack entry — `(`
included — onto the output (lines 117-118 perform no parenthesis check). -/
def infix_to_postfix_chars (l : List Char) : Option (List Char) :=
  match shuntScan ([], []) (insertConcat l) with
  | none => none
  | some (out, stk) => some (out ++ stk)

/-- The list `[chr(c) for c in range(ord(start), ord(end)+1)]` (line 76).
`Char.ofNat` maps the (unreachable for the claims below) invalid code
points to a default character, where Python's `chr` would succeed. -/
def charRange (s e : Char) : List Char :=
  (List.range' s.toNat (e.toNat + 1 - s.toNat)).map Char.ofNat

/-- Validation and expansion of one bracketed class body (lines 72-79):
the body must be exactly three characters with a `-` in the middle;
`none` models either `ValueError`. -/
def classAlt (content : List Char) : Option (List Char) :=
  if ('-' ∈ content) ∧ content.length = 3 then
    match content with
    | [s, d, e] =>
      if d = '-'
      then some ('(' :: (List.intersperse '|' (charRange s e)) ++ [')'])
      else none
    | _ => none
  else none

/-- The scan of `expand_character_classes` (lines 62-84).  The first
argument is `none` outside brackets and `some ct` inside a bracket with
the (reversed) content read so far; reaching the end of input inside a
bracket is the `Unmatched [ in regex` error. -/
def expandAux : Option (List Char) → List Char → Option (List Char)
  | none, [] => some []
  | none, c :: rest =>
    if c = '[' then expandAux (some []) rest
    else (expandAux none rest).map (fun t => c :: t)
  | some _, [] => none
  | some ct, c :: rest =>
    if c = ']' then
      match classAlt ct.reverse with
      | none => none
      | some alt => (expandAux none rest).map (fun t => alt ++ t)
    else expandAux (some (c :: ct)) rest

/-- `expand_character_classes` (lines 60-84). -/
def expand_character_classes (l : List Char) : Option (List Char) :=
  expandAux none l

/-- `regex_to_nfa` (lines 193-197): the full pipeline. -/
def regex_to_nfa (l : List Char) : Option NFA :=
  match expand_character_classes l with
  | none => none
  | some e1 =>
    match infix_to_postfix_chars e1 with
    | none => none
    | some p => postfix_to_nfa p

/-- Number of operands an operator of `postfix_to_nfa` pops from the stack:
two for the binary operators `.` and `|`, one for the quantifiers. -/
def opArity : Char → Nat
  | '.' => 2
  | '|' => 2
  | _ => 1

/-- The concatenation-insertion condition of the specification: `c` is not
an opening group or alternation, and `nxt` is not a closing group,
alternation or unary postfix quantifier. -/
def shouldConcat (c nxt : Char) : Bool :=
  c != '(' && c != '|' &&
    (nxt != ')' && nxt != '|' && nxt != '*' && nxt != '+' && nxt != '?')

/-- Destination states mentioned in an inner dictionary. -/
def innerDests : Inner → List Nat
  | [] => []
  | q :: qs => q.2 ++ innerDests qs

/-- All states mentioned in a transition table (sources and destinations). -/
def transStates : Trans → List Nat
  | [] => []
  | p :: ps => p.1 :: (innerDests p.2 ++ transStates ps)

/-- All states mentioned in a fragment: its start state, accept state and
every state of its transition table. -/
def fragStates (n : NFA) : List Nat :=
  n.start_state :: n.accept_state :: transStates n.transitions

/-- Every state of the fragment lies in the interval [lo, hi). -/
def fragIn (lo hi : Nat) (n : NFA) : Prop :=
  ∀ s ∈ fragStates n, lo ≤ s ∧ s < hi

/-- Invariant of the operand stack of `postfix_to_nfa`: reading from the
top, the fragments occupy pairwise-disjoint descending state intervals,
all below the state counter. -/
def stackChain : Nat → List NFA → Prop
  | _, [] => True
  | hi, n :: rest => ∃ lo, lo ≤ hi ∧ fragIn lo hi n ∧ stackChain lo rest

/-- Two fragments mention no common state. -/
def fragDisjoint (a b : NFA) : Prop :=
  ∀ s, s ∈ fragStates a → s ∈ fragStates b → False

theorem runPostfixToks_append (st : Nat × List NFA) (p q : List Char) :
    runPostfixToks st (p ++ q) =
      match runPostfixToks st p with
      | none => none
      | some st2 => runPostfixToks st2 q := by
  induction p generalizing st with
  | nil => simp [runPostfixToks]
  | cons c cs ih =>
    simp only [List.cons_append, runPostfixToks]
    cases postfixStep st c with
    | none => rfl
    | some st2 => exact ih st2

theorem postfixStep_underflow (cnt : Nat) (stk : List NFA) (op : Char)
    (hop : op ∈ (['*', '+', '?', '.', '|'] : List Char))
    (hlen : stk.length < opArity op) :
    postfixStep (cnt, stk) op = none := by
  fin_cases hop
  · cases stk with
    | nil => rfl
    | cons a l => simp [opArity] at hlen
  · cases stk with
    | nil => rfl
    | cons a l => simp [opArity] at hlen
  · cases stk with
    | nil => rfl
    | cons a l => simp [opArity] at hlen
  · cases stk with
    | nil => rfl
    | cons a l =>
      cases l with
      | nil => rfl
      | cons b m =>
        simp only [opArity, List.length_cons] at hlen
        omega
  · cases stk with
    | nil => rfl
    | cons a l =>
      cases l with
      | nil => rfl
      | cons b m =>
        simp only [opArity, List.length_cons] at hlen
        omega

/-- C1 (corrected): operand-stack underflow does make the build fail (and
the postfix stream "a|" fails this way), but when more than one fragment
remains after all tokens are consumed, `postfix_to_nfa` does not fail: it
returns the top fragment of the stack and silently discards the rest.
Only an empty final stack makes the final pop fail. -/
theorem C1_amended_thm :
    (∀ (p rest : List Char) (op : Char) (cnt : Nat) (stk : List NFA),
        op ∈ (['*', '+', '?', '.', '|'] : List Char) →
        runPostfixToks (0, []) p = some (cnt, stk) →
        stk.length < opArity op →
        postfix_to_nfa (p ++ op :: rest) = none)
    ∧ postfix_to_nfa ['a', '|'] = none
    ∧ (∀ (toks : List Char) (cnt : Nat) (n : NFA) (stk : List NFA),
        runPostfixToks (0, []) toks = some (cnt, n :: stk) →
        postfix_to_nfa toks = some n) := by
  refine ⟨?_, by decide, ?_⟩
  · intro p rest op cnt stk hop hrun hlen
    unfold postfix_to_nfa
    rw [runPostfixToks_append, hrun]
    simp only [runPostfixToks, postfixStep_underflow cnt stk op hop hlen]
  · intro toks cnt n stk hrun
    unfold postfix_to_nfa
    rw [hrun]

/-- Witness for C1: the underflow branch of the amended theorem applied to
the concrete postfix stream "a|". -/
theorem C1_witness : postfix_to_nfa (['a'] ++ '|' :: []) = none :=
  C1_amended_thm.1 ['a'] [] '|' 2 [NFA.mk 0 1 [(0, [('a', [1])])]]
    (by decide) rfl (by decide)

/-- Counterexample to C1 as stated: the postfix stream "ab" leaves two
fragments on the operand stack, yet `postfix_to_nfa` succeeds, returning
the top fragment (the one built for 'b'). -/
theorem C1_counterexample :
    runPostfixToks (0, []) ['a', 'b'] =
      some (4, [NFA.mk 2 3 [(2, [('b', [3])])], NFA.mk 0 1 [(0, [('a', [1])])]])
    ∧ postfix_to_nfa ['a', 'b'] = some (NFA.mk 2 3 [(2, [('b', [3])])]) := by
  constructor
  · rfl
  · rfl

/-- C2 (corrected): `infix_to_postfix` performs no parenthesis check after
the scan: every operator remaining on the stack — a surplus `(` included —
is popped onto the output, and the conversion succeeds.  In particular
"(a|b" converts to "ab|(" instead of failing. -/
theorem C2_amended_thm :
    (∀ (l out stk : List Char),
        shuntScan ([], []) (insertConcat l) = some (out, stk) →
        infix_to_postfix_chars l = some (out ++ stk))
    ∧ infix_to_postfix_chars ['(', 'a', '|', 'b'] = some ['a', 'b', '|', '('] := by
  refine ⟨?_, by decide⟩
  intro l out stk hscan
  unfold infix_to_postfix_chars
  rw [hscan]

/-- Witness for C2: the scan of "(a|b" ends with output "ab|" and the
operators `|` and `(` still on the stack, and the amended theorem turns
that into the successful result "ab|(". -/
theorem C2_witness :
    infix_to_postfix_chars ['(', 'a', '|', 'b'] = some (['a', 'b'] ++ ['|', '(']) :=
  C2_amended_thm.1 ['(', 'a', '|', 'b'] ['a', 'b'] ['|', '('] (by decide)

/-- Counterexample to C2 as stated: the unbalanced input "(a|b" does not
fail; the conversion returns the postfix string "ab|(" containing the
leftover parenthesis. -/
theorem C2_counterexample :
    infix_to_postfix_chars ['(', 'a', '|', 'b'] = some ['a', 'b', '|', '('] := by
  decide

/-- C5 (confirmed): the explicit concatenation operator is inserted
between `c` and `nxt` exactly when `c` is not `(` or `|` and `nxt` is not
`)`, `|`, `*`, `+` or `?`; and the two example conversions hold. -/
theorem C5_concat_insertion :
    (∀ (c nxt : Char) (rest : List Char),
        insertConcat (c :: nxt :: rest) =
          if shouldConcat c nxt
          then c :: '.' :: insertConcat (nxt :: rest)
          else c :: insertConcat (nxt :: rest))
    ∧ infix_to_postfix_chars ['a', 'b'] = some ['a', 'b', '.']
    ∧ infix_to_postfix_chars ['a', '*', 'b'] = some ['a', '*', 'b', '.'] := by
  refine ⟨?_, by decide, by decide⟩
  intro c nxt rest
  have hiff : (shouldConcat c nxt = true) ↔
      (c ∉ (['(', '|'] : List Char) ∧
        nxt ∉ ([')', '|', '*', '+', '?'] : List Char)) := by
    simp [shouldConcat, List.mem_cons, not_or, and_assoc]
  by_cases h : c ∉ (['(', '|'] : List Char) ∧
      nxt ∉ ([')', '|', '*', '+', '?'] : List Char)
  · rw [insertConcat, if_pos h, if_pos (hiff.mpr h)]
  · rw [insertConcat, if_neg h, if_neg (fun hb => h (hiff.mp hb))]

/-- C9 (confirmed): the empty pattern yields no NFA — the postfix
evaluator pops the final result from an empty stack and fails, and the
whole pipeline on the empty pattern fails the same way. -/
theorem C9_empty_pattern :
    postfix_to_nfa [] = none ∧ regex_to_nfa [] = none := by
  constructor
  · rfl
  · rfl

/-- C10 (confirmed): the character 'ε' is accepted as an ordinary literal,
and the transition it produces carries the very same symbol `eps` that the
operator constructions use for their epsilon transitions, as the pattern
"ε*" shows: its literal edge 0 → 1 and the epsilon edges added by the star
all carry `eps`. -/
theorem C10_epsilon_literal :
    regex_to_nfa [eps] = some (NFA.mk 0 1 [(0, [(eps, [1])])])
    ∧ regex_to_nfa [eps, '*'] =
        some (NFA.mk 2 3
          [(0, [(eps, [1])]), (2, [(eps, [0, 3])]), (1, [(eps, [0, 3])])]) := by
  constructor
  · rfl
  · rfl

/-- C4 (confirmed): each operator processed by the postfix evaluator
produces exactly the fragment of the Thompson construction table.  The
binary operators pop the stack top as the right operand N2 and the next
fragment as the left operand N1.  `*` mints s0 = cnt, s1 = cnt+1 and adds,
in order, s0 ε→ N1.start, N1.accept ε→ N1.start, s0 ε→ s1 and
N1.accept ε→ s1, with result start s0 and accept s1; `+` and `?` follow
their rows; `.` mints no states and adds only N1.accept ε→ N2.start with
result N1.start / N2.accept; `|` mints s0, s1 and adds s0 ε→ N1.start,
s0 ε→ N2.start, N1.accept ε→ s1, N2.accept ε→ s1. -/
theorem C4_thompson_table :
    ∀ (cnt : Nat) (n1 n2 : NFA) (rest : List NFA),
      postfixStep (cnt, n1 :: rest) '*' =
        some (cnt + 2,
          ((((NFA.mk cnt (cnt + 1) n1.transitions).add_transition
                cnt eps n1.start_state).add_transition
                n1.accept_state eps n1.start_state).add_transition
                cnt eps (cnt + 1)).add_transition
                n1.accept_state eps (cnt + 1) :: rest)
      ∧ postfixStep (cnt, n1 :: rest) '+' =
          some (cnt + 2,
            (((NFA.mk cnt (cnt + 1) n1.transitions).add_transition
                  cnt eps n1.start_state).add_transition
                  n1.accept_state eps n1.start_state).add_transition
                  n1.accept_state eps (cnt + 1) :: rest)
      ∧ postfixStep (cnt, n1 :: rest) '?' =
          some (cnt + 2,
            (((NFA.mk cnt (cnt + 1) n1.transitions).add_transition
                  cnt eps n1.start_state).add_transition
                  n1.accept_state eps (cnt + 1)).add_transition
                  cnt eps (cnt + 1) :: rest)
      ∧ postfixStep (cnt, n2 :: n1 :: rest) '.' =
          some (cnt,
            (NFA.mk n1.start_state n2.accept_state
                (mergeTrans n1.transitions n2.transitions)).add_transition
                n1.accept_state eps n2.start_state :: rest)
      ∧ postfixStep (cnt, n2 :: n1 :: rest) '|' =
          some (cnt + 2,
            ((((NFA.mk cnt (cnt + 1)
                  (mergeTrans n1.transitions n2.transitions)).add_transition
                  cnt eps n1.start_state).add_transition
                  cnt eps n2.start_state).add_transition
                  n1.accept_state eps (cnt + 1)).add_transition
                  n2.accept_state eps (cnt + 1) :: rest) :=
  fun _ _ _ _ => ⟨rfl, rfl, rfl, rfl, rfl⟩

/-- Counterexample to C3 as stated: the reversed range "[z-a]" does not
fail; class expansion silently produces the empty alternation "()". -/
theorem C3_counterexample :
    expand_character_classes ['[', 'z', '-', 'a', ']'] = some ['(', ')'] := by
  decide

/-- C3 (corrected): for every reversed class `[x-y]` with the start
ordinal strictly greater than the end ordinal, `expand_character_classes`
does not raise a MalformedClass error; it silently emits the empty
alternation "()" and continues with the rest of the pattern. -/
theorem C3_amended_thm :
    ∀ (x y : Char) (rest : List Char), x ≠ ']' → y ≠ ']' → y.toNat < x.toNat →
      expand_character_classes ('[' :: x :: '-' :: y :: ']' :: rest) =
        (expand_character_classes rest).map (fun t => '(' :: ')' :: t) := by
  intro x y rest hx hy hlt
  have hr : charRange x y = [] := by
    unfold charRange
    have h0 : y.toNat + 1 - x.toNat = 0 := by omega
    rw [h0]
    rfl
  unfold expand_character_classes
  simp [expandAux, hx, hy, classAlt, hr]

/-- Witness for C3: the amended theorem applied to the concrete reversed
class "[z-a]". -/
theorem C3_witness :
    expand_character_classes ('[' :: 'z' :: '-' :: 'a' :: ']' :: []) =
      (expand_character_classes []).map (fun t => '(' :: ')' :: t) :=
  C3_amended_thm 'z' 'a' [] (by decide) (by decide) (by decide)

theorem toNat_ofNat_of_small {n : Nat} (h : n < 55296) : (Char.ofNat n).toNat = n := by
  have hv : n.isValidChar := Or.inl h
  rw [Char.ofNat, dif_pos hv]
  rfl

/-- C6 (confirmed): a valid single-range class `[x-y]` with
`x.toNat ≤ y.toNat` is replaced by the parenthesized alternation over
`charRange x y`, whose ordinals enumerate exactly the interval from
`x.toNat` to `y.toNat` inclusive in ascending order; characters outside
brackets are copied through unchanged; and "[a-c]" expands to "(a|b|c)". -/
theorem C6_class_expansion :
    (∀ (x y : Char) (rest : List Char), x ≠ ']' → y ≠ ']' → x.toNat ≤ y.toNat →
        expand_character_classes ('[' :: x :: '-' :: y :: ']' :: rest) =
          (expand_character_classes rest).map
            (fun t => ('(' :: List.intersperse '|' (charRange x y) ++ [')']) ++ t))
    ∧ (∀ (c : Char) (rest : List Char), c ≠ '[' →
        expand_character_classes (c :: rest) =
          (expand_character_classes rest).map (fun t => c :: t))
    ∧ (∀ x y : Char, x.toNat ≤ y.toNat → y.toNat < 55296 →
        (charRange x y).map Char.toNat = List.range' x.toNat (y.toNat + 1 - x.toNat))
    ∧ expand_character_classes ['[', 'a', '-', 'c', ']'] =
        some ['(', 'a', '|', 'b', '|', 'c', ')'] := by
  refine ⟨?_, ?_, ?_, by decide⟩
  · intro x y rest hx hy _
    unfold expand_character_classes
    simp [expandAux, hx, hy, classAlt]
  · intro c rest hc
    unfold expand_character_classes
    simp [expandAux, hc]
  · intro x y hxy hy
    unfold charRange
    rw [List.map_map]
    have hcong : ∀ m ∈ List.range' x.toNat (y.toNat + 1 - x.toNat),
        (Char.toNat ∘ Char.ofNat) m = id m := by
      intro m hm
      rw [List.mem_range'_1] at hm
      exact toNat_ofNat_of_small (by omega)
    rw [List.map_congr_left hcong, List.map_id]

/-- Witness for C6: the class-expansion branch applied to "[a-c]". -/
theorem C6_witness :
    expand_character_classes ('[' :: 'a' :: '-' :: 'c' :: ']' :: []) =
      (expand_character_classes []).map
        (fun t => ('(' :: List.intersperse '|' (charRange 'a' 'c') ++ [')']) ++ t) :=
  C6_class_expansion.1 'a' 'c' [] (by decide) (by decide) (by decide)

/-- C7 (confirmed): for any single literal character (not one of the
operator or bracket characters), the full pipeline `regex_to_nfa`
produces an NFA with two distinct states and a transition table holding
exactly one edge, start --c--> accept. -/
theorem C7_single_literal :
    ∀ c : Char,
      c ∉ (['(', ')', '[', ']', '*', '+', '?', '.', '|'] : List Char) →
      regex_to_nfa [c] = some (NFA.mk 0 1 [(0, [(c, [1])])])
      ∧ ∀ n : NFA, regex_to_nfa [c] = some n →
          n.start_state ≠ n.accept_state
          ∧ n.transitions = [(n.start_state, [(c, [n.accept_state])])] := by
  intro c h
  simp only [List.mem_cons, not_or, List.not_mem_nil] at h
  obtain ⟨h1, h2, h3, h4, h5, h6, h7, h8, h9⟩ := h
  have e1 : expand_character_classes [c] = some [c] := by
    unfold expand_character_classes
    simp [expandAux, h3]
  have e2 : infix_to_postfix_chars [c] = some [c] := by
    unfold infix_to_postfix_chars
    simp [insertConcat, shuntScan, shuntStep, h1, h2, h5, h6, h7, h8, h9]
  have e3 : postfix_to_nfa [c] = some (NFA.mk 0 1 [(0, [(c, [1])])]) := by
    unfold postfix_to_nfa
    simp [runPostfixToks, postfixStep, h5, h6, h7, h8, h9, NFA.add_transition,
      addTransition, addSym, lookupKey]
  have heq : regex_to_nfa [c] = some (NFA.mk 0 1 [(0, [(c, [1])])]) := by
    simp [regex_to_nfa, e1, e2, e3]
  refine ⟨heq, ?_⟩
  intro n hn
  rw [heq] at hn
  injection hn with hn
  subst hn
  simp

/-- Witness for C7: the theorem applied to the literal 'a'. -/
theorem C7_witness :
    regex_to_nfa ['a'] = some (NFA.mk 0 1 [(0, [('a', [1])])]) :=
  (C7_single_literal 'a' (by decide)).1

@[simp] theorem innerDests_nil : innerDests [] = [] := rfl

@[simp] theorem transStates_nil : transStates [] = [] := rfl

@[simp] theorem mem_innerDests_cons {s : Nat} {q : Char × List Nat} {qs : Inner} :
    s ∈ innerDests (q :: qs) ↔ s ∈ q.2 ∨ s ∈ innerDests qs := by
  simp [innerDests]

@[simp] theorem mem_transStates_cons {s : Nat} {p : Nat × Inner} {ps : Trans} :
    s ∈ transStates (p :: ps) ↔ s = p.1 ∨ s ∈ innerDests p.2 ∨ s ∈ transStates ps := by
  simp [transStates]

theorem innerDests_append (i1 i2 : Inner) :
    innerDests (i1 ++ i2) = innerDests i1 ++ innerDests i2 := by
  induction i1 with
  | nil => rfl
  | cons q qs ih => simp [innerDests, ih]

theorem transStates_append (t1 t2 : Trans) :
    transStates (t1 ++ t2) = transStates t1 ++ transStates t2 := by
  induction t1 with
  | nil => rfl
  | cons p ps ih => simp [transStates, ih]

theorem mem_addDest {s : Nat} {ds : List Nat} {d : Nat}
    (h : s ∈ addDest ds d) : s ∈ ds ∨ s = d := by
  unfold addDest at h
  split at h
  · exact Or.inl h
  · rcases List.mem_append.1 h with h | h
    · exact Or.inl h
    · simp at h
      exact Or.inr h

theorem lookupKey_mem_innerDests {sym : Char} {inner : Inner} {ds : List Nat}
    (h : lookupKey sym inner = some ds) : ∀ s ∈ ds, s ∈ innerDests inner := by
  induction inner with
  | nil => simp [lookupKey] at h
  | cons q qs ih =>
    rw [lookupKey] at h
    by_cases hq : q.1 = sym
    · rw [if_pos hq] at h
      injection h with h
      subst h
      intro s hs
      simp
      exact Or.inl hs
    · rw [if_neg hq] at h
      intro s hs
      simp
      exact Or.inr (ih h s hs)

theorem mem_innerDests_setEntry {s : Nat} {inner : Inner} {sym : Char}
    {v : List Nat} (h : s ∈ innerDests (setEntry inner sym v)) :
    s ∈ innerDests inner ∨ s ∈ v := by
  induction inner with
  | nil =>
    simp [setEntry] at h
    exact Or.inr h
  | cons q qs ih =>
    rw [setEntry] at h
    by_cases hq : q.1 = sym
    · rw [if_pos hq] at h
      simp at h ⊢
      tauto
    · rw [if_neg hq] at h
      simp at h ⊢
      rcases h with h | h
      · tauto
      · rcases ih h with h2 | h2 <;> tauto

theorem mem_innerDests_addSym {s : Nat} {inner : Inner} {sym : Char} {d : Nat}
    (h : s ∈ innerDests (addSym inner sym d)) : s ∈ innerDests inner ∨ s = d := by
  unfold addSym at h
  split at h
  · rename_i ds hk
    rcases mem_innerDests_setEntry h with h | h
    · exact Or.inl h
    · rcases mem_addDest h with h | h
      · exact Or.inl (lookupKey_mem_innerDests hk s h)
      · exact Or.inr h
  · rw [innerDests_append] at h
    rcases List.mem_append.1 h with h | h
    · exact Or.inl h
    · simp at h
      exact Or.inr h

theorem mem_transStates_setEntry {s : Nat} {t : Trans} {k : Nat} {v : Inner}
    (h : s ∈ transStates (setEntry t k v)) :
    s ∈ transStates t ∨ s = k ∨ s ∈ innerDests v := by
  induction t with
  | nil =>
    simp [setEntry] at h
    tauto
  | cons p ps ih =>
    rw [setEntry] at h
    by_cases hp : p.1 = k
    · rw [if_pos hp] at h
      simp at h ⊢
      tauto
    · rw [if_neg hp] at h
      simp at h ⊢
      rcases h with h | h | h
      · tauto
      · tauto
      · rcases ih h with h2 | h2 | h2 <;> tauto

theorem lookupKey_mem_transStates {k : Nat} {t : Trans} {inner : Inner}
    (h : lookupKey k t = some inner) : ∀ s ∈ innerDests inner, s ∈ transStates t := by
  induction t with
  | nil => simp [lookupKey] at h
  | cons p ps ih =>
    rw [lookupKey] at h
    by_cases hp : p.1 = k
    · rw [if_pos hp] at h
      injection h with h
      subst h
      intro s hs
      simp
      tauto
    · rw [if_neg hp] at h
      intro s hs
      simp
      exact Or.inr (Or.inr (ih h s hs))

theorem mem_transStates_addTransition {s : Nat} {t : Trans} {a : Nat}
    {sym : Char} {b : Nat} (h : s ∈ transStates (addTransition t a sym b)) :
    s ∈ transStates t ∨ s = a ∨ s = b := by
  unfold addTransition at h
  split at h
  · rename_i inner hk
    rcases mem_transStates_setEntry h with h | h | h
    · tauto
    · tauto
    · rcases mem_innerDests_addSym h with h | h
      · exact Or.inl (lookupKey_mem_transStates hk s h)
      · tauto
  · rw [transStates_append] at h
    rcases List.mem_append.1 h with h | h
    · tauto
    · simp at h
      rcases h with h | h
      · tauto
      · rcases mem_innerDests_addSym h with h | h
        · simp at h
        · tauto

theorem mem_transStates_setSym {s : Nat} {t : Trans} {k : Nat} {sym : Char}
    {ds : List Nat} (h : s ∈ transStates (setSym t k sym ds)) :
    s ∈ transStates t ∨ s ∈ ds := by
  induction t with
  | nil => simp [setSym] at h
  | cons p ps ih =>
    rw [setSym, List.map_cons] at h
    by_cases hp : p.1 = k
    · rw [if_pos hp] at h
      simp at h
      rcases h with h | h | h
      · simp
        tauto
      · rcases mem_innerDests_setEntry h with h2 | h2
        · simp
          tauto
        · tauto
      · have h' : s ∈ transStates (setSym ps k sym ds) := h
        rcases ih h' with h2 | h2
        · simp
          tauto
        · tauto
    · rw [if_neg hp] at h
      simp at h
      rcases h with h | h | h
      · simp
        tauto
      · simp
        tauto
      · have h' : s ∈ transStates (setSym ps k sym ds) := h
        rcases ih h' with h2 | h2
        · simp
          tauto
        · tauto

theorem mem_transStates_setSyms {s : Nat} {qs : Inner} : ∀ {t : Trans} {k : Nat},
    s ∈ transStates (setSyms t k qs) → s ∈ transStates t ∨ s ∈ innerDests qs := by
  induction qs with
  | nil =>
    intro t k h
    exact Or.inl h
  | cons q qq ih =>
    intro t k h
    rw [setSyms] at h
    rcases ih h with h | h
    · rcases mem_transStates_setSym h with h2 | h2
      · exact Or.inl h2
      · simp
        tauto
    · simp
      tauto

theorem mem_transStates_mergeOne {s : Nat} {acc : Trans} {p : Nat × Inner}
    (h : s ∈ transStates (mergeOne acc p)) :
    s ∈ transStates acc ∨ s = p.1 ∨ s ∈ innerDests p.2 := by
  unfold mergeOne at h
  rcases mem_transStates_setSyms h with h | h
  · rcases hk : lookupKey p.1 acc with _ | inner
    · rw [hk] at h
      rw [transStates_append] at h
      rcases List.mem_append.1 h with h | h
      · tauto
      · simp at h
        tauto
    · rw [hk] at h
      tauto
  · tauto

theorem mem_transStates_mergeTrans {s : Nat} : ∀ {t2 t1 : Trans},
    s ∈ transStates (mergeTrans t1 t2) →
    s ∈ transStates t1 ∨ s ∈ transStates t2 := by
  intro t2
  induction t2 with
  | nil =>
    intro t1 h
    exact Or.inl h
  | cons p ps ih =>
    intro t1 h
    rw [mergeTrans] at h
    rcases ih h with h | h
    · rcases mem_transStates_mergeOne h with h2 | h2 | h2
      · exact Or.inl h2
      · simp
        tauto
      · simp
        tauto
    · simp
      tauto

theorem lookupKey_isSome_mem_transStates {s : Nat} {t : Trans}
    (h : (lookupKey s t).isSome) : s ∈ transStates t := by
  induction t with
  | nil => simp [lookupKey] at h
  | cons p ps ih =>
    rw [lookupKey] at h
    by_cases hp : p.1 = s
    · simp
      tauto
    · rw [if_neg hp] at h
      simp
      exact Or.inr (Or.inr (ih h))

theorem lookupKey_append {α β : Type} [DecidableEq α] (k : α)
    (t u : List (α × β)) :
    lookupKey k (t ++ u) =
      match lookupKey k t with
      | some v => some v
      | none => lookupKey k u := by
  induction t with
  | nil => simp [lookupKey]
  | cons p ps ih =>
    by_cases hp : p.1 = k
    · simp [lookupKey, hp]
    · simp [lookupKey, hp, ih]

theorem lookupKey_setSym_ne {s k : Nat} {t : Trans} {sym : Char}
    {ds : List Nat} (h : s ≠ k) :
    lookupKey s (setSym t k sym ds) = lookupKey s t := by
  induction t with
  | nil => rfl
  | cons p ps ih =>
    rw [setSym, List.map_cons]
    by_cases hp : p.1 = k
    · rw [if_pos hp]
      rw [lookupKey, lookupKey]
      have hps : ¬(p.1 = s) := by
        rw [hp]
        exact fun hh => h hh.symm
      rw [if_neg hps, if_neg hps]
      exact ih
    · rw [if_neg hp]
      rw [lookupKey, lookupKey]
      by_cases hps : p.1 = s
      · rw [if_pos hps, if_pos hps]
      · rw [if_neg hps, if_neg hps]
        exact ih

theorem lookupKey_setSyms_ne {s k : Nat} {qs : Inner} : ∀ {t : Trans}, s ≠ k →
    lookupKey s (setSyms t k qs) = lookupKey s t := by
  induction qs with
  | nil =>
    intro t _
    rfl
  | cons q qq ih =>
    intro t h
    rw [setSyms, ih h]
    exact lookupKey_setSym_ne h

theorem lookupKey_mergeOne_ne {s : Nat} {acc : Trans} {p : Nat × Inner}
    (h : s ≠ p.1) : lookupKey s (mergeOne acc p) = lookupKey s acc := by
  unfold mergeOne
  rw [lookupKey_setSyms_ne h]
  rcases hk : lookupKey p.1 acc with _ | inner
  · show lookupKey s (acc ++ [(p.1, [])]) = lookupKey s acc
    rw [lookupKey_append]
    rcases hacc : lookupKey s acc with _ | v
    · have hps : ¬(p.1 = s) := fun hh => h hh.symm
      simp [lookupKey, hps]
    · rfl
  · rfl

theorem lookupKey_mergeTrans_preserved {s : Nat} : ∀ {t2 t1 : Trans},
    (lookupKey s t1).isSome → s ∉ transStates t2 →
    lookupKey s (mergeTrans t1 t2) = lookupKey s t1 := by
  intro t2
  induction t2 with
  | nil =>
    intro t1 _ _
    rfl
  | cons p ps ih =>
    intro t1 hsome hmem
    simp only [mem_transStates_cons, not_or] at hmem
    rw [mergeTrans]
    have h1 : lookupKey s (mergeOne t1 p) = lookupKey s t1 :=
      lookupKey_mergeOne_ne hmem.1
    rw [ih (by rw [h1]; exact hsome) hmem.2.2, h1]

@[simp] theorem stackChain_nil (hi : Nat) : stackChain hi [] = True := rfl

@[simp] theorem stackChain_cons (hi : Nat) (n : NFA) (rest : List NFA) :
    stackChain hi (n :: rest) =
      ∃ lo, lo ≤ hi ∧ fragIn lo hi n ∧ stackChain lo rest := rfl

theorem mem_fragStates_mk {a b : Nat} {t : Trans} {s : Nat} :
    s ∈ fragStates (NFA.mk a b t) ↔ s = a ∨ s = b ∨ s ∈ transStates t := by
  simp [fragStates]

theorem mem_fragStates_add {n : NFA} {a : Nat} {sym : Char} {b : Nat} {s : Nat}
    (h : s ∈ fragStates (n.add_transition a sym b)) :
    s ∈ fragStates n ∨ s = a ∨ s = b := by
  simp only [fragStates, NFA.add_transition, List.mem_cons] at h
  rcases h with h | h | h
  · exact Or.inl (by simp [fragStates, h])
  · exact Or.inl (by simp [fragStates, h])
  · rcases mem_transStates_addTransition h with h | h | h
    · exact Or.inl (by simp [fragStates]; tauto)
    · tauto
    · tauto

theorem fragIn_mk {lo hi a b : Nat} {t : Trans}
    (ha : lo ≤ a ∧ a < hi) (hb : lo ≤ b ∧ b < hi)
    (ht : ∀ u ∈ transStates t, lo ≤ u ∧ u < hi) :
    fragIn lo hi (NFA.mk a b t) := by
  intro s hs
  rw [mem_fragStates_mk] at hs
  rcases hs with rfl | rfl | hs
  · exact ha
  · exact hb
  · exact ht s hs

theorem fragIn_add {lo hi : Nat} {n : NFA} {a : Nat} {sym : Char} {b : Nat}
    (hn : fragIn lo hi n) (ha : lo ≤ a ∧ a < hi) (hb : lo ≤ b ∧ b < hi) :
    fragIn lo hi (n.add_transition a sym b) := by
  intro s hs
  rcases mem_fragStates_add hs with hs | rfl | rfl
  · exact hn s hs
  · exact ha
  · exact hb

theorem transStates_mergeTrans_bound {lo hi : Nat} {t1 t2 : Trans}
    (h1 : ∀ u ∈ transStates t1, lo ≤ u ∧ u < hi)
    (h2 : ∀ u ∈ transStates t2, lo ≤ u ∧ u < hi) :
    ∀ u ∈ transStates (mergeTrans t1 t2), lo ≤ u ∧ u < hi := by
  intro u hu
  rcases mem_transStates_mergeTrans hu with h | h
  · exact h1 u h
  · exact h2 u h

theorem postfixStep_mono {cnt cnt2 : Nat} {stk stk2 : List NFA} {c : Char}
    (hstep : postfixStep (cnt, stk) c = some (cnt2, stk2)) : cnt ≤ cnt2 := by
  simp only [postfixStep] at hstep
  split at hstep
  · simp only [Option.some.injEq, Prod.mk.injEq] at hstep
    obtain ⟨h1, -⟩ := hstep
    omega
  · split at hstep
    · split at hstep
      · exact Option.noConfusion hstep
      · simp only [Option.some.injEq, Prod.mk.injEq] at hstep
        obtain ⟨h1, -⟩ := hstep
        omega
    · split at hstep
      · split at hstep
        · exact Option.noConfusion hstep
        · simp only [Option.some.injEq, Prod.mk.injEq] at hstep
          obtain ⟨h1, -⟩ := hstep
          omega
      · split at hstep
        · split at hstep
          · exact Option.noConfusion hstep
          · simp only [Option.some.injEq, Prod.mk.injEq] at hstep
            obtain ⟨h1, -⟩ := hstep
            omega
        · split at hstep
          · split at hstep
            · exact Option.noConfusion hstep
            · exact Option.noConfusion hstep
            · simp only [Option.some.injEq, Prod.mk.injEq] at hstep
              obtain ⟨h1, -⟩ := hstep
              omega
          · split at hstep
            · exact Option.noConfusion hstep
            · exact Option.noConfusion hstep
            · simp only [Option.some.injEq, Prod.mk.injEq] at hstep
              obtain ⟨h1, -⟩ := hstep
              omega

theorem stackChain_postfixStep {cnt cnt2 : Nat} {stk stk2 : List NFA} {c : Char}
    (hchain : stackChain cnt stk)
    (hstep : postfixStep (cnt, stk) c = some (cnt2, stk2)) :
    stackChain cnt2 stk2 := by
  simp only [postfixStep] at hstep
  split at hstep
  · simp only [Option.some.injEq, Prod.mk.injEq] at hstep
    obtain ⟨rfl, rfl⟩ := hstep
    rw [stackChain_cons]
    refine ⟨cnt, by omega, ?_, hchain⟩
    exact fragIn_add
      (fragIn_mk ⟨by omega, by omega⟩ ⟨by omega, by omega⟩
        (fun u hu => absurd hu (by simp)))
      ⟨by omega, by omega⟩ ⟨by omega, by omega⟩
  · split at hstep
    · split at hstep
      · exact Option.noConfusion hstep
      · simp only [Option.some.injEq, Prod.mk.injEq] at hstep
        obtain ⟨rfl, rfl⟩ := hstep
        rename_i n1 rest
        rw [stackChain_cons] at hchain ⊢
        obtain ⟨lo, hlo, hf, hrest⟩ := hchain
        have hstart := hf n1.start_state (by simp [fragStates])
        have haccept := hf n1.accept_state (by simp [fragStates])
        have htr : ∀ u ∈ transStates n1.transitions, lo ≤ u ∧ u < cnt + 2 := by
          intro u hu
          have := hf u (by simp [fragStates]; tauto)
          omega
        refine ⟨lo, by omega, ?_, hrest⟩
        exact fragIn_add (fragIn_add (fragIn_add (fragIn_add
          (fragIn_mk ⟨by omega, by omega⟩ ⟨by omega, by omega⟩ htr)
          ⟨by omega, by omega⟩ ⟨by omega, by omega⟩)
          ⟨by omega, by omega⟩ ⟨by omega, by omega⟩)
          ⟨by omega, by omega⟩ ⟨by omega, by omega⟩)
          ⟨by omega, by omega⟩ ⟨by omega, by omega⟩
    · split at hstep
      · split at hstep
        · exact Option.noConfusion hstep
        · simp only [Option.some.injEq, Prod.mk.injEq] at hstep
          obtain ⟨rfl, rfl⟩ := hstep
          rename_i n1 rest
          rw [stackChain_cons] at hchain ⊢
          obtain ⟨lo, hlo, hf, hrest⟩ := hchain
          have hstart := hf n1.start_state (by simp [fragStates])
          have haccept := hf n1.accept_state (by simp [fragStates])
          have htr : ∀ u ∈ transStates n1.transitions, lo ≤ u ∧ u < cnt + 2 := by
            intro u hu
            have := hf u (by simp [fragStates]; tauto)
            omega
          refine ⟨lo, by omega, ?_, hrest⟩
          exact fragIn_add (fragIn_add (fragIn_add
            (fragIn_mk ⟨by omega, by omega⟩ ⟨by omega, by omega⟩ htr)
            ⟨by omega, by omega⟩ ⟨by omega, by omega⟩)
            ⟨by omega, by omega⟩ ⟨by omega, by omega⟩)
            ⟨by omega, by omega⟩ ⟨by omega, by omega⟩
      · split at hstep
        · split at hstep
          · exact Option.noConfusion hstep
          · simp only [Option.some.injEq, Prod.mk.injEq] at hstep
            obtain ⟨rfl, rfl⟩ := hstep
            rename_i n1 rest
            rw [stackChain_cons] at hchain ⊢
            obtain ⟨lo, hlo, hf, hrest⟩ := hchain
            have hstart := hf n1.start_state (by simp [fragStates])
            have haccept := hf n1.accept_state (by simp [fragStates])
            have htr : ∀ u ∈ transStates n1.transitions, lo ≤ u ∧ u < cnt + 2 := by
              intro u hu
              have := hf u (by simp [fragStates]; tauto)
              omega
            refine ⟨lo, by omega, ?_, hrest⟩
            exact fragIn_add (fragIn_add (fragIn_add
              (fragIn_mk ⟨by omega, by omega⟩ ⟨by omega, by omega⟩ htr)
              ⟨by omega, by omega⟩ ⟨by omega, by omega⟩)
              ⟨by omega, by omega⟩ ⟨by omega, by omega⟩)
              ⟨by omega, by omega⟩ ⟨by omega, by omega⟩
        · split at hstep
          · split at hstep
            · exact Option.noConfusion hstep
            · exact Option.noConfusion hstep
            · simp only [Option.some.injEq, Prod.mk.injEq] at hstep
              obtain ⟨rfl, rfl⟩ := hstep
              rename_i n2 n1 rest
              rw [stackChain_cons] at hchain ⊢
              obtain ⟨lo2, hlo2, hf2, hrest⟩ := hchain
              rw [stackChain_cons] at hrest
              obtain ⟨lo1, hlo1, hf1, hrest1⟩ := hrest
              have hstart1 := hf1 n1.start_state (by simp [fragStates])
              have haccept1 := hf1 n1.accept_state (by simp [fragStates])
              have hstart2 := hf2 n2.start_state (by simp [fragStates])
              have haccept2 := hf2 n2.accept_state (by simp [fragStates])
              have htr1 : ∀ u ∈ transStates n1.transitions, lo1 ≤ u ∧ u < cnt := by
                intro u hu
                have := hf1 u (by simp [fragStates]; tauto)
                omega
              have htr2 : ∀ u ∈ transStates n2.transitions, lo1 ≤ u ∧ u < cnt := by
                intro u hu
                have := hf2 u (by simp [fragStates]; tauto)
                omega
              refine ⟨lo1, by omega, ?_, hrest1⟩
              exact fragIn_add
                (fragIn_mk ⟨by omega, by omega⟩ ⟨by omega, by omega⟩
                  (transStates_mergeTrans_bound htr1 htr2))
                ⟨by omega, by omega⟩ ⟨by omega, by omega⟩
          · split at hstep
            · exact Option.noConfusion hstep
            · exact Option.noConfusion hstep
            · simp only [Option.some.injEq, Prod.mk.injEq] at hstep
              obtain ⟨rfl, rfl⟩ := hstep
              rename_i n2 n1 rest
              rw [stackChain_cons] at hchain ⊢
              obtain ⟨lo2, hlo2, hf2, hrest⟩ := hchain
              rw [stackChain_cons] at hrest
              obtain ⟨lo1, hlo1, hf1, hrest1⟩ := hrest
              have hstart1 := hf1 n1.start_state (by simp [fragStates])
              have haccept1 := hf1 n1.accept_state (by simp [fragStates])
              have hstart2 := hf2 n2.start_state (by simp [fragStates])
              have haccept2 := hf2 n2.accept_state (by simp [fragStates])
              have htr1 : ∀ u ∈ transStates n1.transitions, lo1 ≤ u ∧ u < cnt + 2 := by
                intro u hu
                have := hf1 u (by simp [fragStates]; tauto)
                omega
              have htr2 : ∀ u ∈ transStates n2.transitions, lo1 ≤ u ∧ u < cnt + 2 := by
                intro u hu
                have := hf2 u (by simp [fragStates]; tauto)
                omega
              refine ⟨lo1, by omega, ?_, hrest1⟩
              exact fragIn_add (fragIn_add (fragIn_add (fragIn_add
                (fragIn_mk ⟨by omega, by omega⟩ ⟨by omega, by omega⟩
                  (transStates_mergeTrans_bound htr1 htr2))
                ⟨by omega, by omega⟩ ⟨by omega, by omega⟩)
                ⟨by omega, by omega⟩ ⟨by omega, by omega⟩)
                ⟨by omega, by omega⟩ ⟨by omega, by omega⟩)
                ⟨by omega, by omega⟩ ⟨by omega, by omega⟩

theorem runPostfixToks_chain : ∀ (toks : List Char) (st st2 : Nat × List NFA),
    stackChain st.1 st.2 → runPostfixToks st toks = some st2 →
    stackChain st2.1 st2.2 := by
  intro toks
  induction toks with
  | nil =>
    intro st st2 h hrun
    rw [runPostfixToks] at hrun
    injection hrun with h2
    subst h2
    exact h
  | cons c cs ih =>
    intro st st2 h hrun
    obtain ⟨cnt, stk⟩ := st
    rw [runPostfixToks] at hrun
    rcases hstep : postfixStep (cnt, stk) c with _ | stA
    · rw [hstep] at hrun
      exact Option.noConfusion hrun
    · rw [hstep] at hrun
      obtain ⟨cntA, stkA⟩ := stA
      exact ih (cntA, stkA) st2 (stackChain_postfixStep h hstep) hrun

theorem stackChain_bound : ∀ {stk : List NFA} {hi : Nat}, stackChain hi stk →
    ∀ n ∈ stk, ∀ s ∈ fragStates n, s < hi := by
  intro stk
  induction stk with
  | nil =>
    intro hi _ n hn
    simp at hn
  | cons m rest ih =>
    intro hi hc n hn s hs
    obtain ⟨lo, hlo, hf, hrest⟩ := hc
    rcases List.mem_cons.1 hn with rfl | hn
    · exact (hf s hs).2
    · exact lt_of_lt_of_le (lt_of_lt_of_le (ih hrest n hn s hs) hlo) (le_refl hi)

theorem stackChain_pairwise : ∀ {stk : List NFA} {hi : Nat}, stackChain hi stk →
    stk.Pairwise fragDisjoint := by
  intro stk
  induction stk with
  | nil =>
    intro hi _
    exact List.Pairwise.nil
  | cons m rest ih =>
    intro hi hc
    obtain ⟨lo, hlo, hf, hrest⟩ := hc
    refine List.Pairwise.cons ?_ (ih hrest)
    intro b hb s hsm hsb
    have h1 := (hf s hsm).1
    have h2 := stackChain_bound hrest b hb s hsb
    omega

/-- C8 (confirmed): the state counter of `postfix_to_nfa` never decreases
across a step, every state of every fragment built during a run from the
initial state (counter 0, empty stack) lies strictly below the current
counter, any two fragments simultaneously on the operand stack mention
disjoint state sets, and in particular merging the top two fragments'
transition tables (as the `.` and `|` branches do) never overwrites an
existing state entry of the first fragment. -/
theorem C8_state_disjointness :
    (∀ (cnt : Nat) (stk : List NFA) (c : Char) (cnt2 : Nat) (stk2 : List NFA),
        postfixStep (cnt, stk) c = some (cnt2, stk2) → cnt ≤ cnt2)
    ∧ (∀ (toks : List Char) (cnt : Nat) (stk : List NFA),
        runPostfixToks (0, []) toks = some (cnt, stk) →
        (∀ n ∈ stk, ∀ s ∈ fragStates n, s < cnt)
        ∧ stk.Pairwise fragDisjoint
        ∧ ∀ (n2 n1 : NFA) (rest : List NFA), stk = n2 :: n1 :: rest →
            ∀ s : Nat, (lookupKey s n1.transitions).isSome →
              lookupKey s (mergeTrans n1.transitions n2.transitions) =
                lookupKey s n1.transitions) := by
  constructor
  · intro cnt stk c cnt2 stk2 hstep
    exact postfixStep_mono hstep
  · intro toks cnt stk hrun
    have hchain : stackChain cnt stk :=
      runPostfixToks_chain toks (0, []) (cnt, stk) trivial hrun
    refine ⟨fun n hn s hs => stackChain_bound hchain n hn s hs,
      stackChain_pairwise hchain, ?_⟩
    intro n2 n1 rest hstk s hsome
    subst hstk
    obtain ⟨lo2, hlo2, hf2, hrest⟩ := hchain
    rw [stackChain_cons] at hrest
    obtain ⟨lo1, hlo1, hf1, hrest1⟩ := hrest
    apply lookupKey_mergeTrans_preserved hsome
    intro hmem
    have hs1 : s ∈ transStates n1.transitions :=
      lookupKey_isSome_mem_transStates hsome
    have hb1 := hf1 s (by simp [fragStates]; tauto)
    have hb2 := hf2 s (by simp [fragStates]; tauto)
    omega

/-- Witness for C8: after running the postfix tokens "ab" the stack holds
the two literal fragments; merging the lower fragment's table with the top
one's preserves the entry of state 0. -/
theorem C8_witness :
    lookupKey 0 (mergeTrans (NFA.mk 0 1 [(0, [('a', [1])])]).transitions
        (NFA.mk 2 3 [(2, [('b', [3])])]).transitions) =
      lookupKey 0 (NFA.mk 0 1 [(0, [('a', [1])])]).transitions :=
  (C8_state_disjointness.2 ['a', 'b'] 4
      [NFA.mk 2 3 [(2, [('b', [3])])], NFA.mk 0 1 [(0, [('a', [1])])]]
      (by decide)).2.2
    (NFA.mk 2 3 [(2, [('b', [3])])]) (NFA.mk 0 1 [(0, [('a', [1])])]) [] rfl
    0 (by decide)

end RegexToNfa
